import Mathlib

/-!
Verification of the edge-tts streaming synthesis client (isomorphic build,
`src/isomorphic-*.ts`, `src/submaker.ts`, `src/tts_config.ts`).

The JavaScript code is shallowly embedded: JS strings become `String` /
`List Char`, byte buffers become `List Nat` (each entry `< 256`), JS numbers
holding 100-nanosecond tick counts from the service become `Nat` (the service
reports non-negative integer tick values), JS numbers holding seconds become
`Rat`, a JS number that may be `NaN` is `Option Rat` (`none` = NaN), and
thrown exceptions become `Except Err`.
-/

deriving instance DecidableEq for Except

namespace EdgeTTS

/-- The exception taxonomy of `src/exceptions.ts`, plus the plain `Error`
thrown by `stream()` (`genericError`). -/
inductive Err where
  | skewAdjustment (msg : String)
  | unknownResponse (msg : String)
  | unexpectedResponse (msg : String)
  | noAudioReceived (msg : String)
  | webSocket (msg : String)
  | valueError (msg : String)
  | genericError (msg : String)
deriving DecidableEq

/-- `CommunicateState` from the `Communicate` class: partial text buffer,
timing offset compensation, last duration offset, and the one-shot flag. -/
structure CommunicateState where
  partialText : List Nat
  offsetCompensation : Nat
  lastDurationOffset : Nat
  streamWasCalled : Bool
deriving DecidableEq

/-- The state installed by the `IsomorphicCommunicate` constructor. -/
def initialState : CommunicateState :=
  { partialText := []
    offsetCompensation := 0
    lastDurationOffset := 0
    streamWasCalled := false }

/-- The re-entrancy guard at the top of `IsomorphicCommunicate.stream()`:
a second call throws `Error("stream can only be called once.")`, a first
call sets the flag and proceeds. -/
def streamCheckStarted (st : CommunicateState) : Except Err CommunicateState :=
  if st.streamWasCalled then
    .error (.genericError "stream can only be called once.")
  else
    .ok { st with streamWasCalled := true }

/-- C9: the first call to `stream()` on a fresh session sets the started
flag and succeeds; a second call on the same session fails with the
already-started error instead of producing events. -/
theorem c9_stream_single_use (st : CommunicateState)
    (h : st.streamWasCalled = false) :
    streamCheckStarted st = .ok { st with streamWasCalled := true } ∧
    streamCheckStarted { st with streamWasCalled := true } =
      .error (.genericError "stream can only be called once.") := by
  constructor
  · simp [streamCheckStarted, h]
  · simp [streamCheckStarted]

/-- Witness for C9 at the constructor state. -/
theorem c9_stream_single_use_witness :
    streamCheckStarted initialState =
      .ok { initialState with streamWasCalled := true } ∧
    streamCheckStarted { initialState with streamWasCalled := true } =
      .error (.genericError "stream can only be called once.") :=
  c9_stream_single_use initialState rfl

/-! ### Binary frame dispatch (`processBinaryData`) -/

/-- The object literal returned by `parseMetadata` on a `WordBoundary`
metadata entry (`{type, offset, duration, text}`). -/
structure ParsedMetadata where
  type : String
  offset : Nat
  duration : Nat
  text : String
deriving DecidableEq

/-- An entry of the `messageQueue` built by the receive loop in `_stream()`:
a parsed WordBoundary chunk, an audio chunk, or a queued exception. -/
inductive QueueItem where
  | boundary (pm : ParsedMetadata)
  | audio (data : List Nat)
  | errItem (e : Err)
deriving DecidableEq

/-- The dispatch part of `processBinaryData`, after
`isomorphicGetHeadersAndDataFromBinary` has split the length-prefixed frame
into its decoded header map (the JS header object, a partial map from names
to values) and the remaining payload bytes. -/
def processBinaryData (headers : String → Option String) (audioData : List Nat) :
    List QueueItem :=
  if headers "Path" ≠ some "audio" then
    [.errItem (.unexpectedResponse "Received binary message, but the path is not audio.")]
  else
    let contentType := headers "Content-Type"
    if contentType ≠ some "audio/mpeg" then
      if audioData.length > 0 then
        [.errItem (.unexpectedResponse "Received binary message, but with an unexpected Content-Type.")]
      else []
    else if audioData.length = 0 then
      [.errItem (.unexpectedResponse "Received binary message, but it is missing the audio data.")]
    else [.audio audioData]

/-- Header map of a binary frame with Path `audio` and a Content-Type that
differs from the expected audio MIME type. -/
def c3MismatchedHeaders : String → Option String :=
  fun k =>
    if k = "Path" then some "audio"
    else if k = "Content-Type" then some "text/plain" else none

/-- Header map of a well-formed binary audio frame. -/
def c3AudioHeaders : String → Option String :=
  fun k =>
    if k = "Path" then some "audio"
    else if k = "Content-Type" then some "audio/mpeg" else none

/-- C3 counterexample: a binary frame with Path `audio`, a mismatched
Content-Type, and an empty payload produces no event and no error at all —
the claim predicts an AudioChunk event for this case. -/
theorem c3_counterexample :
    processBinaryData c3MismatchedHeaders [] = [] := by
  decide

/-- C3 (amended): for a binary frame with Path `audio`: a mismatched
Content-Type with a non-empty payload fails with UnexpectedResponse; a
mismatched Content-Type with an empty payload is silently dropped (no event,
no error); a matching Content-Type with an empty payload fails with
UnexpectedResponse; a matching Content-Type with a non-empty payload emits
an AudioChunk event carrying the payload bytes. -/
theorem c3_binary_audio_dispatch (headers : String → Option String)
    (audioData : List Nat) (hpath : headers "Path" = some "audio") :
    (headers "Content-Type" ≠ some "audio/mpeg" → audioData ≠ [] →
      processBinaryData headers audioData =
        [.errItem (.unexpectedResponse "Received binary message, but with an unexpected Content-Type.")]) ∧
    (headers "Content-Type" ≠ some "audio/mpeg" → audioData = [] →
      processBinaryData headers audioData = []) ∧
    (headers "Content-Type" = some "audio/mpeg" → audioData = [] →
      processBinaryData headers audioData =
        [.errItem (.unexpectedResponse "Received binary message, but it is missing the audio data.")]) ∧
    (headers "Content-Type" = some "audio/mpeg" → audioData ≠ [] →
      processBinaryData headers audioData = [.audio audioData]) := by
  refine ⟨fun h1 h2 => ?_, fun h1 h2 => ?_, fun h1 h2 => ?_, fun h1 h2 => ?_⟩ <;>
    simp [processBinaryData, hpath, h1, h2, List.length_pos]

/-- Witness for C3 (amended): a well-formed audio frame with payload `[7]`
emits exactly the AudioChunk event. -/
theorem c3_binary_audio_dispatch_witness :
    processBinaryData c3AudioHeaders [7] = [.audio [7]] :=
  (c3_binary_audio_dispatch c3AudioHeaders [7] rfl).2.2.2 rfl (by decide)

/-! ### SubMaker (`src/submaker.ts`) -/

/-- `TTSChunk` from the public type definitions: a tagged chunk whose
optional fields mirror the TypeScript optional properties. -/
structure TTSChunk where
  type : String
  data : Option (List Nat) := none
  duration : Option Nat := none
  offset : Option Nat := none
  text : Option String := none
deriving DecidableEq

/-- A subtitle cue. The source field `end` is spelled `stop` here because
`end` is a Lean keyword. -/
structure Cue where
  index : Nat
  start : Rat
  stop : Rat
  content : String
deriving DecidableEq

/-- `SubMaker.feed`: validates that the chunk is a `WordBoundary` carrying
offset, duration and text, then appends a cue with 1-based index and
tick-to-second conversion (divide by 1e7). -/
def feed (cues : List Cue) (msg : TTSChunk) : Except Err (List Cue) :=
  match msg.type == "WordBoundary", msg.offset, msg.duration, msg.text with
  | true, some o, some d, some t =>
      .ok (cues ++ [{ index := cues.length + 1
                      start := (o : Rat) / 10000000
                      stop := ((o + d : Nat) : Rat) / 10000000
                      content := t }])
  | _, _, _, _ =>
      .error (.valueError "Invalid message type, expected \x27WordBoundary\x27 with offset, duration and text")

/-- `SubMaker.mergeCues`: merges consecutive cues while the running cue has
strictly fewer than `words` space-separated words, then re-indexes. -/
def mergeCues (words : Int) (cues : List Cue) : Except Err (List Cue) :=
  if words ≤ 0 then
    .error (.valueError "Invalid number of words to merge, expected > 0")
  else
    match cues with
    | [] => .ok []
    | c0 :: rest =>
      let step := fun (acc : List Cue × Cue) (cue : Cue) =>
        if ((acc.2.content.splitOn " ").length : Int) < words then
          (acc.1, { acc.2 with stop := cue.stop
                               content := acc.2.content ++ " " ++ cue.content })
        else
          (acc.1 ++ [acc.2], cue)
      let r := rest.foldl step ([], c0)
      let newCues := r.1 ++ [r.2]
      .ok (newCues.enum.map (fun p => { p.2 with index := p.1 + 1 }))

/-- The four WordBoundary events of the C8 scenario. -/
def c8Events : List TTSChunk :=
  [ { type := "WordBoundary", offset := some 0, duration := some 3000000, text := some "The" },
    { type := "WordBoundary", offset := some 3000000, duration := some 3000000, text := some "quick" },
    { type := "WordBoundary", offset := some 6000000, duration := some 3000000, text := some "brown" },
    { type := "WordBoundary", offset := some 9000000, duration := some 3000000, text := some "fox" } ]

/-- C8: feeding the four WordBoundary events into a fresh SubMaker and then
calling `mergeCues 2` (strict less-than word-count comparison) yields exactly
two cues: "The quick" spanning 0.0 to 0.6 seconds and "brown fox" spanning
0.6 to 1.2 seconds, with indices 1 and 2. -/
theorem c8_submaker_merge :
    (List.foldlM feed [] c8Events >>= mergeCues 2) =
      .ok [ { index := 1, start := 0, stop := 3/5, content := "The quick" },
            { index := 2, start := 3/5, stop := 6/5, content := "brown fox" } ] := by
  with_unfolding_all decide

/-! ### Clock-skew reconciliation (`src/isomorphic-drm.ts`) -/

/-- A JS number that may be `NaN`: `none` models NaN, which propagates
through arithmetic. -/
abbrev JsNum := Option Rat

/-- NaN-propagating addition of JS numbers. -/
def jsAdd (a b : JsNum) : JsNum :=
  match a, b with
  | some x, some y => some (x + y)
  | _, _ => none

/-- NaN-propagating subtraction of JS numbers. -/
def jsSub (a b : JsNum) : JsNum :=
  match a, b with
  | some x, some y => some (x - y)
  | _, _ => none

/-- `IsomorphicDRM.parseRfc2616Date`. The platform primitive `new Date(s)`
is a parameter `dateParse` (`none` = invalid date, so `getTime()` is NaN).
The JS `Date` constructor never throws on an unparsable string, so the
source try/catch can never return `null`; the outer `Option` layer keeps
that (unreachable) `null` result from the source. -/
def parseRfc2616Date (dateParse : String → JsNum) (date : String) : Option JsNum :=
  some (dateParse date)

/-- `IsomorphicDRM.getUnixTimestamp`: current seconds plus the clock-skew
accumulator. -/
def getUnixTimestamp (nowSeconds : Rat) (clockSkewSeconds : JsNum) : JsNum :=
  jsAdd (some nowSeconds) clockSkewSeconds

/-- `IsomorphicDRM.handleClientResponseError`: reads the Date-like header
(`dateHeader`; the JS falsy test treats an empty string like an absent
header), parses it, and adds (server time − locally adjusted time) to the
clock-skew accumulator, whose new value is returned. -/
def handleClientResponseError (dateParse : String → JsNum) (nowSeconds : Rat)
    (clockSkewSeconds : JsNum) (dateHeader : Option String) : Except Err JsNum :=
  if dateHeader = none ∨ dateHeader = some "" then
    .error (.skewAdjustment "No server date in headers.")
  else
    match dateHeader with
    | none => .error (.skewAdjustment "No server date in headers.")
    | some d =>
      match parseRfc2616Date dateParse d with
      | none => .error (.skewAdjustment ("Failed to parse server date: " ++ d))
      | some serverDateParsed =>
        .ok (jsAdd clockSkewSeconds
              (jsSub serverDateParsed (getUnixTimestamp nowSeconds clockSkewSeconds)))

/-- The `new Date` behavior on a string no calendar-time parse accepts:
an invalid Date, whose `getTime()` is NaN. -/
def unparsableDateParse : String → JsNum := fun _ => none

set_option maxRecDepth 4000 in
/-- C7 (code bug): with the Date header absent the function raises
SkewAdjustmentError, and with a parsable header it adjusts the accumulator
by (server time − locally adjusted time); but with an unparsable header it
returns normally and sets the accumulator to NaN instead of raising —
`new Date` never throws, so the null-check branch of `parseRfc2616Date` is
unreachable. -/
theorem c7_unparsable_date_no_error :
    handleClientResponseError unparsableDateParse 1000 (some 0) none =
      .error (.skewAdjustment "No server date in headers.") ∧
    handleClientResponseError (fun _ => some 500) 1000 (some 0)
        (some "Mon, 01 Jan 2024 00:00:00 GMT") = .ok (some (-500)) ∧
    handleClientResponseError unparsableDateParse 1000 (some 0)
        (some "not-a-date") = .ok none := by
  refine ⟨rfl, ?_, rfl⟩
  with_unfolding_all decide

/-! ### XML escaping (`escape` / `unescape` in `src/isomorphic-utils.ts`)

`text.replace(/pat/g, rep)` with a literal pattern replaces occurrences
left-to-right, non-overlapping, without rescanning replacements. It is
embedded as `replaceAll` on `List Char`; the recursion is driven by a fuel
argument (`s.length` always suffices) so that the function reduces in the
kernel. -/

/-- If the pattern is a leading fragment of the input, return the rest. -/
def stripPat : List Char → List Char → Option (List Char)
  | [], s => some s
  | _ :: _, [] => none
  | p :: ps, c :: cs => if p = c then stripPat ps cs else none

theorem stripPat_eq_some : ∀ {p s r : List Char}, stripPat p s = some r ↔ s = p ++ r
  | [], s, r => by simp [stripPat]
  | _ :: _, [], r => by simp [stripPat]
  | x :: xs, c :: cs, r => by
    simp only [stripPat, List.cons_append, List.cons.injEq]
    split
    · next h => subst h; rw [stripPat_eq_some]; simp
    · next h =>
      exact iff_of_false (by simp) (by rintro ⟨h1, -⟩; exact h h1.symm)

/-- Fuel-driven worker for `replaceAll`; the pattern is `p :: ps` (JS string
patterns here are never empty). -/
def replaceAllF (p : Char) (ps rep : List Char) : Nat → List Char → List Char
  | _, [] => []
  | 0, s => s
  | fuel + 1, c :: cs =>
    match stripPat (p :: ps) (c :: cs) with
    | some rest => rep ++ replaceAllF p ps rep fuel rest
    | none => c :: replaceAllF p ps rep fuel cs

theorem replaceAllF_congr {p : Char} {ps rep : List Char} :
    ∀ {f1 : Nat} {s : List Char} {f2 : Nat}, s.length ≤ f1 → s.length ≤ f2 →
      replaceAllF p ps rep f1 s = replaceAllF p ps rep f2 s := by
  intro f1
  induction f1 with
  | zero =>
    intro s f2 h1 _
    have : s = [] := List.eq_nil_of_length_eq_zero (Nat.le_zero.mp h1)
    subst this
    cases f2 <;> rfl
  | succ f1 ih =>
    intro s f2 h1 h2
    cases s with
    | nil => cases f2 <;> rfl
    | cons c cs =>
      cases f2 with
      | zero => simp at h2
      | succ f2 =>
        simp only [List.length_cons, Nat.add_le_add_iff_right] at h1 h2
        simp only [replaceAllF]
        split
        · next rest h =>
          have hlen : cs.length = ps.length + rest.length := by
            have h3 := congrArg List.length (stripPat_eq_some.mp h)
            simpa using h3
          have hr : rest.length ≤ cs.length := by omega
          rw [ih (Nat.le_trans hr h1) (Nat.le_trans hr h2)]
        · next h => rw [ih h1 h2]

/-- `String.prototype.replace(/pat/g, rep)` for a literal, non-empty pattern
`p :: ps`: left-to-right, non-overlapping, replacements not rescanned. -/
def replaceAll (p : Char) (ps rep : List Char) (s : List Char) : List Char :=
  replaceAllF p ps rep s.length s

@[simp] theorem replaceAll_nil {p : Char} {ps rep : List Char} :
    replaceAll p ps rep [] = [] := rfl

theorem replaceAll_cons_match {p c : Char} {ps rep cs rest : List Char}
    (h : stripPat (p :: ps) (c :: cs) = some rest) :
    replaceAll p ps rep (c :: cs) = rep ++ replaceAll p ps rep rest := by
  have hlen : cs.length = ps.length + rest.length := by
    have h3 := congrArg List.length (stripPat_eq_some.mp h)
    simpa using h3
  unfold replaceAll
  simp only [List.length_cons, replaceAllF, h]
  rw [replaceAllF_congr (by omega) (Nat.le_refl _)]

theorem replaceAll_cons_nomatch {p c : Char} {ps rep cs : List Char}
    (h : stripPat (p :: ps) (c :: cs) = none) :
    replaceAll p ps rep (c :: cs) = c :: replaceAll p ps rep cs := by
  unfold replaceAll
  simp only [List.length_cons, replaceAllF, h]

/-- The apostrophe character (written by code so that it appears in no
literal). -/
def aposChar : Char := Char.ofNat 39

/-- `escape`: `& < > " '` are rewritten to their XML entities, in the
source's replacement order (`&` first). -/
def escapeList (s : List Char) : List Char :=
  replaceAll aposChar [] "&apos;".data
    (replaceAll '"' [] "&quot;".data
      (replaceAll '>' [] "&gt;".data
        (replaceAll '<' [] "&lt;".data
          (replaceAll '&' [] "&amp;".data s))))

/-- `unescape`: the five XML entities are rewritten back, in the source's
replacement order (`&quot;` first, `&amp;` last). -/
def unescapeList (s : List Char) : List Char :=
  replaceAll '&' "amp;".data ['&']
    (replaceAll '&' "gt;".data ['>']
      (replaceAll '&' "lt;".data ['<']
        (replaceAll '&' "apos;".data [aposChar]
          (replaceAll '&' "quot;".data ['"'] s))))

/-- `escape` from `src/isomorphic-utils.ts`. -/
def escape (s : String) : String := ⟨escapeList s.data⟩

/-- `unescape` from `src/isomorphic-utils.ts`. -/
def unescape (s : String) : String := ⟨unescapeList s.data⟩

/-! ### Metadata parsing (`parseMetadata`) -/

/-- One entry of the `Metadata` array in an `audio.metadata` JSON body
(JSON parsing itself is a platform primitive): its `Type` and, for a
WordBoundary, the `Data.Offset`, `Data.Duration` and `Data.text.Text`
fields. -/
inductive MetaEntry where
  | wordBoundary (offset duration : Nat) (text : String)
  | sessionEnd
  | other (type : String)
deriving DecidableEq

/-- `parseMetadata`: scan the metadata list; the first `WordBoundary` entry
yields the event (offset rebased by `offsetCompensation`, text unescaped);
`SessionEnd` entries are skipped; any other type raises UnknownResponse;
running out of entries raises UnexpectedResponse. -/
def parseMetadata (st : CommunicateState) : List MetaEntry → Except Err ParsedMetadata
  | [] => .error (.unexpectedResponse "No WordBoundary metadata found")
  | .wordBoundary o d t :: _ =>
    .ok { type := "WordBoundary"
          offset := o + st.offsetCompensation
          duration := d
          text := unescape t }
  | .sessionEnd :: rest => parseMetadata st rest
  | .other ty :: _ => .error (.unknownResponse ("Unknown metadata type: " ++ ty))

theorem parseMetadata_skip_sessionEnd (st : CommunicateState) :
    ∀ (pre l : List MetaEntry), (∀ x ∈ pre, x = .sessionEnd) →
      parseMetadata st (pre ++ l) = parseMetadata st l := by
  intro pre
  induction pre with
  | nil => intro l _; rfl
  | cons x xs ih =>
    intro l hall
    have hx : x = .sessionEnd := hall x (by simp)
    subst hx
    simpa [parseMetadata] using ih l (fun y hy => hall y (by simp [hy]))

/-- C2: scanning an `audio.metadata` payload, the first `WordBoundary`
entry (after any skipped `SessionEnd` entries) yields an event whose offset
is the entry offset plus the session offsetCompensation, whose duration is
the entry duration, and whose text is the XML-unescaped entry text; a
first non-`SessionEnd` entry of any other type raises UnknownResponse; and
a list with no `WordBoundary` entry raises UnexpectedResponse. -/
theorem c2_parse_metadata (st : CommunicateState) (entries : List MetaEntry) :
    (∀ pre o d t rest, entries = pre ++ .wordBoundary o d t :: rest →
        (∀ x ∈ pre, x = .sessionEnd) →
        parseMetadata st entries =
          .ok { type := "WordBoundary", offset := o + st.offsetCompensation,
                duration := d, text := unescape t }) ∧
    (∀ pre ty rest, entries = pre ++ .other ty :: rest →
        (∀ x ∈ pre, x = .sessionEnd) →
        parseMetadata st entries =
          .error (.unknownResponse ("Unknown metadata type: " ++ ty))) ∧
    ((∀ x ∈ entries, x = .sessionEnd) →
        parseMetadata st entries =
          .error (.unexpectedResponse "No WordBoundary metadata found")) := by
  refine ⟨?_, ?_, ?_⟩
  · intro pre o d t rest he hall
    subst he
    rw [parseMetadata_skip_sessionEnd st pre _ hall]
    rfl
  · intro pre ty rest he hall
    subst he
    rw [parseMetadata_skip_sessionEnd st pre _ hall]
    rfl
  · intro hall
    have := parseMetadata_skip_sessionEnd st entries [] hall
    simpa using this

/-- Witness for C2: a `SessionEnd` entry is skipped and the first
`WordBoundary` entry is returned with a rebased offset and unescaped text. -/
theorem c2_parse_metadata_witness :
    parseMetadata initialState
        [.sessionEnd, .wordBoundary 5 3 "a&amp;b"] =
      .ok { type := "WordBoundary", offset := 5 + initialState.offsetCompensation,
            duration := 3, text := unescape "a&amp;b" } :=
  (c2_parse_metadata initialState _).1 [.sessionEnd] 5 3 "a&amp;b" [] rfl
    (by intro x hx; simpa using hx)

/-! ### Text frame handling (`handleMessage` in `_stream()`) -/

/-- The decoded form of a text frame as seen by `handleMessage`: the `Path`
header (possibly missing) and, for `audio.metadata` frames, the parsed
entries of the JSON body. -/
structure TextMsg where
  path : Option String
  meta : List MetaEntry
deriving DecidableEq

/-- JS string interpolation of a possibly-undefined header value. -/
def pathString : Option String → String
  | some p => p
  | none => "undefined"

/-- The text-frame part of `handleMessage`: `audio.metadata` parses the body
and records `lastDurationOffset = offset + duration` of the parsed event
(queueing the parse error instead on failure); `turn.end` copies
`lastDurationOffset` into `offsetCompensation` (and closes the socket,
ending the chunk); `response` and `turn.start` are ignored; any other path
queues UnknownResponse. -/
def handleTextMessage (st : CommunicateState) (msg : TextMsg) :
    CommunicateState × List QueueItem :=
  if msg.path = some "audio.metadata" then
    match parseMetadata st msg.meta with
    | .ok pm => ({ st with lastDurationOffset := pm.offset + pm.duration }, [.boundary pm])
    | .error e => (st, [.errItem e])
  else if msg.path = some "turn.end" then
    ({ st with offsetCompensation := st.lastDurationOffset }, [])
  else if msg.path ≠ some "response" ∧ msg.path ≠ some "turn.start" then
    (st, [.errItem (.unknownResponse ("Unknown path received: " ++ pathString msg.path))])
  else
    (st, [])

/-- Process a list of text frames in arrival order, threading the session
state and concatenating the queued items. -/
def processFrames (st : CommunicateState) : List TextMsg → CommunicateState × List QueueItem
  | [] => (st, [])
  | m :: ms =>
    let r := handleTextMessage st m
    let r2 := processFrames r.1 ms
    (r2.1, r.2 ++ r2.2)

theorem processFrames_cons (st : CommunicateState) (m : TextMsg) (ms : List TextMsg) :
    processFrames st (m :: ms) =
      ((processFrames (handleTextMessage st m).1 ms).1,
       (handleTextMessage st m).2 ++ (processFrames (handleTextMessage st m).1 ms).2) := rfl

/-- Select the WordBoundary events among queued items. -/
def isBoundary : QueueItem → Option ParsedMetadata
  | .boundary pm => some pm
  | _ => none

@[simp] theorem isBoundary_boundary (pm : ParsedMetadata) :
    isBoundary (.boundary pm) = some pm := rfl

@[simp] theorem isBoundary_audio (d : List Nat) : isBoundary (.audio d) = none := rfl

@[simp] theorem isBoundary_errItem (e : Err) : isBoundary (.errItem e) = none := rfl

/-- The last WordBoundary event among queued items. -/
def lastBoundary (items : List QueueItem) : Option ParsedMetadata :=
  (items.filterMap isBoundary).getLast?

/-- The decoded `turn.end` frame. -/
def turnEndMsg : TextMsg := { path := some "turn.end", meta := [] }

theorem parseMetadata_offset_le (st : CommunicateState) :
    ∀ (entries : List MetaEntry) (pm : ParsedMetadata),
      parseMetadata st entries = .ok pm → st.offsetCompensation ≤ pm.offset
  | [], pm, h => by simp [parseMetadata] at h
  | .wordBoundary o d t :: rest, pm, h => by
    simp only [parseMetadata, Except.ok.injEq] at h
    subst h
    exact Nat.le_add_left _ _
  | .sessionEnd :: rest, pm, h =>
    parseMetadata_offset_le st rest pm (by simpa [parseMetadata] using h)
  | .other ty :: rest, pm, h => by simp [parseMetadata] at h

theorem handleTextMessage_spec (st : CommunicateState) (msg : TextMsg) :
    (∃ pm, (handleTextMessage st msg).2 = [QueueItem.boundary pm] ∧
      (handleTextMessage st msg).1 =
        { st with lastDurationOffset := pm.offset + pm.duration } ∧
      st.offsetCompensation ≤ pm.offset) ∨
    ((handleTextMessage st msg).2.filterMap isBoundary = [] ∧
      (handleTextMessage st msg).1 =
        { st with offsetCompensation := st.lastDurationOffset }) ∨
    ((handleTextMessage st msg).2.filterMap isBoundary = [] ∧
      (handleTextMessage st msg).1 = st) := by
  unfold handleTextMessage
  split
  · split
    · next pm hp =>
      exact Or.inl ⟨pm, rfl, rfl, parseMetadata_offset_le st msg.meta pm hp⟩
    · next e hp => exact Or.inr (Or.inr ⟨by simp, rfl⟩)
  · split
    · exact Or.inr (Or.inl ⟨by simp, rfl⟩)
    · split
      · exact Or.inr (Or.inr ⟨by simp, rfl⟩)
      · exact Or.inr (Or.inr ⟨by simp, rfl⟩)

theorem processFrames_spec (fs : List TextMsg) : ∀ st : CommunicateState,
    (st.offsetCompensation ≤ st.lastDurationOffset →
      (processFrames st fs).1.offsetCompensation ≤
          (processFrames st fs).1.lastDurationOffset ∧
      st.offsetCompensation ≤ (processFrames st fs).1.offsetCompensation) ∧
    (lastBoundary (processFrames st fs).2 = none →
      (processFrames st fs).1.lastDurationOffset = st.lastDurationOffset) ∧
    (∀ pm, lastBoundary (processFrames st fs).2 = some pm →
      (processFrames st fs).1.lastDurationOffset = pm.offset + pm.duration) ∧
    (st.offsetCompensation ≤ st.lastDurationOffset →
      ∀ pm ∈ (processFrames st fs).2.filterMap isBoundary,
        st.offsetCompensation ≤ pm.offset) := by
  induction fs with
  | nil =>
    intro st
    refine ⟨fun h => ⟨h, Nat.le_refl _⟩, fun _ => rfl, ?_, ?_⟩
    · intro pm h
      simp [processFrames, lastBoundary] at h
    · intro _ pm hpm
      simp [processFrames] at hpm
  | cons m ms ih =>
    intro st
    rcases handleTextMessage_spec st m with
      ⟨pm0, hitems, hst, hoff⟩ | ⟨hitems, hst⟩ | ⟨hitems, hst⟩
    · -- a WordBoundary event was parsed and queued
      obtain ⟨ih1, ih2, ih3, ih4⟩ := ih (handleTextMessage st m).1
      have hinv1 : (handleTextMessage st m).1.offsetCompensation ≤
          (handleTextMessage st m).1.lastDurationOffset := by
        rw [hst]
        exact Nat.le_trans hoff (Nat.le_add_right _ _)
      have hcomp1 : (handleTextMessage st m).1.offsetCompensation =
          st.offsetCompensation := by rw [hst]
      refine ⟨fun _ => ?_, ?_, ?_, ?_⟩
      · obtain ⟨ha, hb⟩ := ih1 hinv1
        rw [processFrames_cons]
        exact ⟨ha, by rw [← hcomp1]; exact hb⟩
      · intro hnone
        exfalso
        rw [processFrames_cons] at hnone
        simp [lastBoundary, hitems, List.filterMap_append] at hnone
      · intro pm hsome
        rw [processFrames_cons] at hsome ⊢
        simp only [lastBoundary, List.filterMap_append, hitems,
          List.filterMap_cons, isBoundary_boundary, List.filterMap_nil] at hsome
        by_cases hP :
            (processFrames (handleTextMessage st m).1 ms).2.filterMap isBoundary = []
        · rw [hP] at hsome
          simp at hsome
          subst hsome
          have := ih2 (by simp [lastBoundary, hP])
          rw [this, hst]
        · rw [List.getLast?_append_of_ne_nil _ hP] at hsome
          exact ih3 pm hsome
      · intro hinv pm hpm
        rw [processFrames_cons] at hpm
        simp only [List.filterMap_append, hitems, List.filterMap_cons,
          isBoundary_boundary, List.filterMap_nil, List.mem_append,
          List.mem_cons, List.not_mem_nil, or_false] at hpm
        rcases hpm with rfl | hpm
        · exact hoff
        · have := ih4 hinv1 pm hpm
          rw [hcomp1] at this
          exact this
    · -- turn.end: offsetCompensation := lastDurationOffset
      obtain ⟨ih1, ih2, ih3, ih4⟩ := ih (handleTextMessage st m).1
      have hinv1 : (handleTextMessage st m).1.offsetCompensation ≤
          (handleTextMessage st m).1.lastDurationOffset := by
        rw [hst]
      have hlast1 : (handleTextMessage st m).1.lastDurationOffset =
          st.lastDurationOffset := by rw [hst]
      have hcomp1 : (handleTextMessage st m).1.offsetCompensation =
          st.lastDurationOffset := by rw [hst]
      refine ⟨fun hinv => ?_, ?_, ?_, ?_⟩
      · obtain ⟨ha, hb⟩ := ih1 hinv1
        rw [processFrames_cons]
        refine ⟨ha, Nat.le_trans hinv ?_⟩
        rw [← hcomp1]
        exact hb
      · intro hnone
        rw [processFrames_cons] at hnone ⊢
        simp only [lastBoundary, List.filterMap_append, hitems,
          List.nil_append] at hnone
        rw [ih2 hnone, hlast1]
      · intro pm hsome
        rw [processFrames_cons] at hsome ⊢
        simp only [lastBoundary, List.filterMap_append, hitems,
          List.nil_append] at hsome
        exact ih3 pm hsome
      · intro hinv pm hpm
        rw [processFrames_cons] at hpm
        simp only [List.filterMap_append, hitems, List.nil_append] at hpm
        have := ih4 hinv1 pm hpm
        rw [hcomp1] at this
        exact Nat.le_trans hinv this
    · -- ignored frame or queued error: state unchanged
      obtain ⟨ih1, ih2, ih3, ih4⟩ := ih (handleTextMessage st m).1
      refine ⟨fun hinv => ?_, ?_, ?_, ?_⟩
      · rw [processFrames_cons]
        have h := ih1 (by rw [hst]; exact hinv)
        refine ⟨h.1, ?_⟩
        have hc : (handleTextMessage st m).1.offsetCompensation =
            st.offsetCompensation := by rw [hst]
        rw [← hc]
        exact h.2
      · intro hnone
        rw [processFrames_cons] at hnone ⊢
        simp only [lastBoundary, List.filterMap_append, hitems,
          List.nil_append] at hnone
        rw [ih2 hnone, hst]
      · intro pm hsome
        rw [processFrames_cons] at hsome ⊢
        simp only [lastBoundary, List.filterMap_append, hitems,
          List.nil_append] at hsome
        exact ih3 pm hsome
      · intro hinv pm hpm
        rw [processFrames_cons] at hpm
        simp only [List.filterMap_append, hitems, List.nil_append] at hpm
        have := ih4 (by rw [hst]; exact hinv) pm hpm
        rw [hst] at this
        exact this

theorem processFrames_append (st : CommunicateState) (fs gs : List TextMsg) :
    processFrames st (fs ++ gs) =
      ((processFrames (processFrames st fs).1 gs).1,
       (processFrames st fs).2 ++ (processFrames (processFrames st fs).1 gs).2) := by
  induction fs generalizing st with
  | nil => simp [processFrames]
  | cons m ms ih =>
    simp only [List.cons_append, processFrames_cons, ih, List.append_assoc]

/-- C1: when a `turn.end` frame ends chunk k, `offsetCompensation` is set to
`lastDurationOffset`, which equals the final WordBoundary event's
(offset + duration) observed during chunk k; the new `offsetCompensation`
is at least the old one, and every WordBoundary event of any later chunk has
an offset at least that value — a single non-decreasing timeline across
chunk boundaries. -/
theorem c1_offset_compensation_carry (st : CommunicateState)
    (fs gs : List TextMsg) (pm : ParsedMetadata)
    (hinv : st.offsetCompensation ≤ st.lastDurationOffset)
    (hlast : lastBoundary (processFrames st fs).2 = some pm) :
    (processFrames st (fs ++ [turnEndMsg])).1.offsetCompensation =
        pm.offset + pm.duration ∧
    st.offsetCompensation ≤
      (processFrames st (fs ++ [turnEndMsg])).1.offsetCompensation ∧
    ∀ pm2 ∈ (processFrames (processFrames st (fs ++ [turnEndMsg])).1 gs).2.filterMap
        isBoundary,
      pm.offset + pm.duration ≤ pm2.offset := by
  obtain ⟨s1, s2, s3, s4⟩ := processFrames_spec fs st
  have hte : (processFrames (processFrames st fs).1 [turnEndMsg]).1 =
      { (processFrames st fs).1 with
        offsetCompensation := (processFrames st fs).1.lastDurationOffset } := by
    simp [processFrames, handleTextMessage, turnEndMsg]
  have hst2 : (processFrames st (fs ++ [turnEndMsg])).1 =
      { (processFrames st fs).1 with
        offsetCompensation := (processFrames st fs).1.lastDurationOffset } := by
    rw [processFrames_append st fs [turnEndMsg]]
    exact hte
  have hldo := s3 pm hlast
  have hinv1 := s1 hinv
  refine ⟨?_, ?_, ?_⟩
  · rw [hst2]
    exact hldo
  · rw [hst2]
    exact Nat.le_trans hinv1.2 hinv1.1
  · intro pm2 hpm2
    obtain ⟨t1, t2, t3, t4⟩ :=
      processFrames_spec gs (processFrames st (fs ++ [turnEndMsg])).1
    have hinv2 : (processFrames st (fs ++ [turnEndMsg])).1.offsetCompensation ≤
        (processFrames st (fs ++ [turnEndMsg])).1.lastDurationOffset := by
      rw [hst2]
    have hc : (processFrames st (fs ++ [turnEndMsg])).1.offsetCompensation =
        pm.offset + pm.duration := by
      rw [hst2]
      exact hldo
    have hmem := t4 hinv2 pm2 hpm2
    rw [← hc]
    exact hmem

/-- Frames of chunk k in the C1 witness scenario: a single `audio.metadata`
frame with one WordBoundary entry. -/
def c1ChunkFrames : List TextMsg :=
  [{ path := some "audio.metadata", meta := [.wordBoundary 10 5 "w"] }]

/-- Frames of chunk k+1 in the C1 witness scenario. -/
def c1NextFrames : List TextMsg :=
  [{ path := some "audio.metadata", meta := [.wordBoundary 2 4 "x"] }]

/-- The WordBoundary event emitted during chunk k of the C1 witness. -/
def c1Pm : ParsedMetadata :=
  { type := "WordBoundary", offset := 10, duration := 5, text := "w" }

/-- Witness for C1 on a concrete two-chunk scenario. -/
theorem c1_offset_compensation_carry_witness :
    (processFrames initialState (c1ChunkFrames ++ [turnEndMsg])).1.offsetCompensation =
        c1Pm.offset + c1Pm.duration ∧
    initialState.offsetCompensation ≤
      (processFrames initialState (c1ChunkFrames ++ [turnEndMsg])).1.offsetCompensation ∧
    ∀ pm2 ∈ (processFrames
        (processFrames initialState (c1ChunkFrames ++ [turnEndMsg])).1
        c1NextFrames).2.filterMap isBoundary,
      c1Pm.offset + c1Pm.duration ≤ pm2.offset :=
  c1_offset_compensation_carry initialState c1ChunkFrames c1NextFrames c1Pm
    (by decide) (by decide)

/-! ### Text segmentation (`splitTextByByteLength`)

Platform primitives used by the source — `TextEncoder` (UTF-8 encode),
`TextDecoder` (WHATWG UTF-8 decode with U+FFFD replacement), the regex
class `\s`, `String.prototype.trim` and `split(/(\s+)/)` — are embedded
below. Non-structural recursions are driven by a fuel argument (the input
length always suffices) so that they reduce in the kernel. -/

/-- The ECMAScript `\s` class: WhiteSpace plus LineTerminator code points. -/
def isWs (c : Char) : Bool :=
  decide (c.toNat ∈ ([0x09, 0x0A, 0x0B, 0x0C, 0x0D, 0x20, 0xA0, 0x1680,
    0x2028, 0x2029, 0x202F, 0x205F, 0x3000, 0xFEFF] : List Nat) ∨
    (0x2000 ≤ c.toNat ∧ c.toNat ≤ 0x200A))

/-- Fuel-driven worker for `splitWs`. -/
def splitWsF : Nat → List Char → List (List Char)
  | 0, s => [s.takeWhile (fun c => ! isWs c)]
  | fuel + 1, s =>
    let w := s.takeWhile (fun c => ! isWs c)
    let rest := s.dropWhile (fun c => ! isWs c)
    match rest with
    | [] => [w]
    | c :: cr =>
      w :: (c :: cr).takeWhile isWs :: splitWsF fuel ((c :: cr).dropWhile isWs)

/-- `text.split(/(\s+)/)`: alternating word and whitespace-run tokens, the
separators kept, with an empty leading or trailing word when the text
starts or ends with whitespace. -/
def splitWs (s : List Char) : List (List Char) := splitWsF s.length s

/-- `String.prototype.trim`. -/
def trimList (s : List Char) : List Char :=
  ((s.dropWhile isWs).reverse.dropWhile isWs).reverse

/-- `TextEncoder`: UTF-8 encoding of one code point. -/
def utf8EncodeChar (c : Char) : List Nat :=
  let n := c.toNat
  if n < 0x80 then [n]
  else if n < 0x800 then [0xC0 + n / 64, 0x80 + n % 64]
  else if n < 0x10000 then [0xE0 + n / 4096, 0x80 + n / 64 % 64, 0x80 + n % 64]
  else [0xF0 + n / 262144, 0x80 + n / 4096 % 64, 0x80 + n / 64 % 64, 0x80 + n % 64]

/-- `TextEncoder().encode(s)` as a byte list. -/
def utf8Encode (s : List Char) : List Nat := (s.map utf8EncodeChar).flatten

/-- `encoder.encode(s).length`: the UTF-8 byte length. -/
def utf8Len (s : List Char) : Nat := (utf8Encode s).length

/-- U+FFFD, the WHATWG decoder's replacement character. -/
def replChar : Char := Char.ofNat 0xFFFD

/-- A UTF-8 continuation byte. -/
def isCont (b : Nat) : Bool := decide (0x80 ≤ b ∧ b ≤ 0xBF)

/-- Fuel-driven worker for `utf8Decode` (WHATWG decoding: on a malformed
sequence, one U+FFFD is emitted for the maximal consumed subpart and the
offending byte is reprocessed). -/
def utf8DecodeF : Nat → List Nat → List Char
  | _, [] => []
  | 0, _ => []
  | fuel + 1, b :: bs =>
    if b ≤ 0x7F then Char.ofNat b :: utf8DecodeF fuel bs
    else if 0xC2 ≤ b ∧ b ≤ 0xDF then
      match bs with
      | [] => [replChar]
      | b1 :: r1 =>
        if isCont b1 then Char.ofNat ((b % 32) * 64 + b1 % 64) :: utf8DecodeF fuel r1
        else replChar :: utf8DecodeF fuel bs
    else if 0xE0 ≤ b ∧ b ≤ 0xEF then
      match bs with
      | [] => [replChar]
      | b1 :: r1 =>
        let lo := if b = 0xE0 then 0xA0 else 0x80
        let hi := if b = 0xED then 0x9F else 0xBF
        if lo ≤ b1 ∧ b1 ≤ hi then
          match r1 with
          | [] => [replChar]
          | b2 :: r2 =>
            if isCont b2 then
              Char.ofNat ((b % 16) * 4096 + (b1 % 64) * 64 + b2 % 64) ::
                utf8DecodeF fuel r2
            else replChar :: utf8DecodeF fuel r1
        else replChar :: utf8DecodeF fuel bs
    else if 0xF0 ≤ b ∧ b ≤ 0xF4 then
      match bs with
      | [] => [replChar]
      | b1 :: r1 =>
        let lo := if b = 0xF0 then 0x90 else 0x80
        let hi := if b = 0xF4 then 0x8F else 0xBF
        if lo ≤ b1 ∧ b1 ≤ hi then
          match r1 with
          | [] => [replChar]
          | b2 :: r2 =>
            if isCont b2 then
              match r2 with
              | [] => [replChar]
              | b3 :: r3 =>
                if isCont b3 then
                  Char.ofNat ((b % 8) * 262144 + (b1 % 64) * 4096 +
                      (b2 % 64) * 64 + b3 % 64) :: utf8DecodeF fuel r3
                else replChar :: utf8DecodeF fuel r2
            else replChar :: utf8DecodeF fuel r1
        else replChar :: utf8DecodeF fuel bs
    else replChar :: utf8DecodeF fuel bs

/-- `new TextDecoder().decode(bytes)` (default non-fatal mode). -/
def utf8Decode (bs : List Nat) : List Char := utf8DecodeF bs.length bs

/-- Fuel-driven worker for `byteChunks`. -/
def byteChunksF (n : Nat) : Nat → List Nat → List (List Nat)
  | _, [] => []
  | 0, _ => []
  | fuel + 1, bs => bs.take n :: byteChunksF n fuel (bs.drop n)

/-- The slicing loop `for (let i = 0; i < wordBytes.length; i += byteLength)`
over `wordBytes.slice(i, i + byteLength)`. (The JS loop never terminates
when `byteLength = 0`; theorems assume a positive limit.) -/
def byteChunks (n : Nat) (bs : List Nat) : List (List Nat) :=
  byteChunksF n bs.length bs

/-- The accumulation loop of `splitTextByByteLength` over the tokens of
`text.split(/(\s+)/)`: greedily extend `currentChunk` while the UTF-8 length
stays within the limit; on overflow flush the trimmed current chunk, or —
when the current chunk is empty — force-split the token's bytes. The final
chunk is pushed when its trimmed form is non-empty. -/
def splitGo (byteLength : Nat) : List (List Char) → List Char → List (List Char)
  | [], currentChunk =>
    if trimList currentChunk ≠ [] then [trimList currentChunk] else []
  | w :: ws, currentChunk =>
    let potentialChunk := currentChunk ++ w
    if utf8Len potentialChunk ≤ byteLength then
      splitGo byteLength ws potentialChunk
    else if currentChunk ≠ [] then
      trimList currentChunk :: splitGo byteLength ws w
    else
      (byteChunks byteLength (utf8Encode w)).map utf8Decode ++ splitGo byteLength ws []

/-- `splitTextByByteLength` from `src/isomorphic-utils.ts`. -/
def splitTextByByteLength (text : String) (byteLength : Nat) : List String :=
  (splitGo byteLength (splitWs text.data) []).map (fun l => String.mk l)

/-- The whitespace-free projection of a character list. -/
def noWs (s : List Char) : List Char := s.filter (fun c => ! isWs c)

@[simp] theorem noWs_nil : noWs [] = [] := rfl

@[simp] theorem noWs_append (a b : List Char) : noWs (a ++ b) = noWs a ++ noWs b := by
  simp [noWs]

theorem noWs_dropWhile (s : List Char) : noWs (s.dropWhile isWs) = noWs s := by
  conv_rhs => rw [← List.takeWhile_append_dropWhile (p := isWs) (l := s)]
  rw [noWs_append]
  have : noWs (s.takeWhile isWs) = [] := by
    rw [noWs, List.filter_eq_nil_iff]
    intro a ha
    simp [List.mem_takeWhile_imp ha]
  rw [this, List.nil_append]

@[simp] theorem noWs_trim (s : List Char) : noWs (trimList s) = noWs s := by
  unfold trimList
  rw [noWs, List.filter_reverse, ← noWs, noWs_dropWhile, noWs,
    List.filter_reverse, ← noWs, noWs_dropWhile, List.reverse_reverse]

theorem dropWhile_head_false {p : Char → Bool} :
    ∀ {l : List Char} {c : Char} {cs : List Char},
      l.dropWhile p = c :: cs → p c = false := by
  intro l
  induction l with
  | nil => intro c cs h; simp [List.dropWhile] at h
  | cons x xs ih =>
    intro c cs h
    simp only [List.dropWhile_cons] at h
    split at h
    · exact ih h
    · next hx =>
      cases h
      simpa using hx

theorem splitWsF_flatten :
    ∀ (fuel : Nat) (s : List Char), s.length ≤ fuel →
      (splitWsF fuel s).flatten = s := by
  intro fuel
  induction fuel with
  | zero =>
    intro s h
    have hs : s = [] := List.eq_nil_of_length_eq_zero (Nat.le_zero.mp h)
    subst hs
    rfl
  | succ fuel ih =>
    intro s h
    simp only [splitWsF]
    split
    · next heq =>
      simp only [List.flatten, List.append_nil]
      conv_rhs => rw [← List.takeWhile_append_dropWhile (p := fun c => ! isWs c) (l := s)]
      rw [heq, List.append_nil]
    · next c cr heq =>
      have hc : isWs c = true := by
        have := dropWhile_head_false heq
        simpa using this
      have hlen1 : (c :: cr).length ≤ s.length :=
        heq ▸ (List.dropWhile_sublist _).length_le
      have hdrop : (c :: cr).dropWhile isWs = cr.dropWhile isWs := by
        simp [List.dropWhile_cons, hc]
      have hlen2 : (cr.dropWhile isWs).length ≤ cr.length :=
        (List.dropWhile_sublist _).length_le
      have hfuel : ((c :: cr).dropWhile isWs).length ≤ fuel := by
        rw [hdrop]
        simp only [List.length_cons] at hlen1
        omega
      simp only [List.flatten_cons, ih _ hfuel]
      rw [List.takeWhile_append_dropWhile, ← heq,
        List.takeWhile_append_dropWhile]

theorem splitWs_flatten (s : List Char) : (splitWs s).flatten = s :=
  splitWsF_flatten s.length s (Nat.le_refl _)

theorem splitGo_noWs (byteLength : Nat) :
    ∀ (ws : List (List Char)) (cur : List Char),
      (∀ w ∈ ws, utf8Len w ≤ byteLength) →
      noWs ((splitGo byteLength ws cur).flatten) = noWs cur ++ noWs ws.flatten := by
  intro ws
  induction ws with
  | nil =>
    intro cur _
    simp only [splitGo]
    split
    · next hne => simp
    · next hne =>
      rw [not_ne_iff] at hne
      have hcur : noWs cur = [] := by rw [← noWs_trim cur, hne]; rfl
      simp [hcur]
  | cons w ws ih =>
    intro cur h
    have hw : utf8Len w ≤ byteLength := h w (by simp)
    have hws : ∀ x ∈ ws, utf8Len x ≤ byteLength := fun x hx => h x (by simp [hx])
    simp only [splitGo]
    split
    · next hfit =>
      rw [ih (cur ++ w) hws]
      simp [List.append_assoc]
    · next hnofit =>
      split
      · next hcur =>
        simp only [List.flatten_cons, noWs_append, noWs_trim, ih w hws]
      · next hcur =>
        exfalso
        rw [not_ne_iff] at hcur
        subst hcur
        simp only [List.nil_append] at hnofit
        exact hnofit hw

/-- C5 (amended): whenever every token of `text.split(/(\s+)/)` — each
whitespace-delimited word and each whitespace run — has UTF-8 length at most
the limit (so no force-split occurs), concatenating the chunks produced by
the text segmenter reproduces the input text up to whitespace inserted or
trimmed at chunk boundaries (formally: the whitespace-free projections
agree). -/
theorem c5_segmenter_concat (text : String) (byteLength : Nat)
    (h : ∀ w ∈ splitWs text.data, utf8Len w ≤ byteLength) :
    noWs (((splitTextByByteLength text byteLength).map String.data).flatten) =
      noWs text.data := by
  unfold splitTextByByteLength
  rw [List.map_map]
  have hid : (String.data ∘ fun l => String.mk l) = id := rfl
  rw [hid, List.map_id]
  rw [splitGo_noWs byteLength (splitWs text.data) [] h, splitWs_flatten]
  rfl

/-- Witness for C5 (amended) on `"ab cd"` with limit 4. -/
theorem c5_segmenter_concat_witness :
    noWs (((splitTextByByteLength "ab cd" 4).map String.data).flatten) =
      noWs "ab cd".data :=
  c5_segmenter_concat "ab cd" 4 (by decide)

/-- C5 counterexample: with limit 3, the single two-character word `"éé"`
(4 UTF-8 bytes) is force-split mid-character; the decoder turns the cut
bytes into U+FFFD replacement characters, so even the whitespace-free
content of the concatenated chunks differs from the input. -/
theorem c5_counterexample :
    noWs (((splitTextByByteLength "éé" 3).map String.data).flatten) ≠
      noWs "éé".data := by
  decide

theorem byteChunksF_length_le (n : Nat) :
    ∀ (fuel : Nat) (bs : List Nat), ∀ sl ∈ byteChunksF n fuel bs, sl.length ≤ n := by
  intro fuel
  induction fuel with
  | zero =>
    intro bs sl hsl
    cases bs <;> simp [byteChunksF] at hsl
  | succ fuel ih =>
    intro bs sl hsl
    cases bs with
    | nil => simp [byteChunksF] at hsl
    | cons b bs' =>
      simp only [byteChunksF, List.mem_cons] at hsl
      rcases hsl with rfl | hsl
      · simp [List.length_take_le]
      · exact ih _ sl hsl

theorem splitWs_single (s : List Char) (hW : ∀ c ∈ s, isWs c = false) :
    splitWs s = [s] := by
  have hdrop : s.dropWhile (fun c => ! isWs c) = [] := by
    rw [List.dropWhile_eq_nil_iff]
    intro a ha
    simp [hW a ha]
  have htake : s.takeWhile (fun c => ! isWs c) = s := by
    have h2 := List.takeWhile_append_dropWhile (p := fun c => ! isWs c) (l := s)
    rw [hdrop, List.append_nil] at h2
    exact h2
  cases s with
  | nil => rfl
  | cons c cr =>
    show splitWsF (cr.length + 1) (c :: cr) = [c :: cr]
    simp only [splitWsF, hdrop, htake]

/-- C6 (amended): an oversized whitespace-free word reached while the
accumulated chunk is empty is force-split at raw byte boundaries into
slices of at most the limit, each decoded separately; an oversized word
reached while the accumulator is non-empty is emitted whole as an over-limit
chunk (the counterexample). -/
theorem c6_force_split (wd : List Char) (byteLength : Nat)
    (_h0 : 0 < byteLength) (hW : ∀ c ∈ wd, isWs c = false)
    (hover : byteLength < utf8Len wd) :
    splitTextByByteLength (String.mk wd) byteLength =
      (byteChunks byteLength (utf8Encode wd)).map
        (fun sl => String.mk (utf8Decode sl)) ∧
    ∀ sl ∈ byteChunks byteLength (utf8Encode wd), sl.length ≤ byteLength := by
  constructor
  · unfold splitTextByByteLength
    rw [show (String.mk wd).data = wd from rfl, splitWs_single wd hW]
    simp only [splitGo, List.nil_append]
    rw [if_neg (by omega), if_neg (by simp), if_neg (by decide),
      List.append_nil, List.map_map]
    rfl
  · intro sl hsl
    exact byteChunksF_length_le byteLength (utf8Encode wd).length (utf8Encode wd) sl hsl

/-- Witness for C6 (amended): the single word `"bcdef"` with limit 3 is
split into raw byte slices of at most 3 bytes. -/
theorem c6_force_split_witness :
    splitTextByByteLength (String.mk "bcdef".data) 3 =
      (byteChunks 3 (utf8Encode "bcdef".data)).map
        (fun sl => String.mk (utf8Decode sl)) ∧
    ∀ sl ∈ byteChunks 3 (utf8Encode "bcdef".data), sl.length ≤ 3 :=
  c6_force_split "bcdef".data 3 (by decide) (by decide) (by decide)

/-- C6 counterexample: with limit 3 and text `"a bcdef"`, the oversized
word `"bcdef"` (5 UTF-8 bytes) is emitted whole as a chunk exceeding the
limit — it is not force-split, because the accumulator was non-empty when
the word was reached. -/
theorem c6_counterexample :
    splitTextByByteLength "a bcdef" 3 = ["a", "bcdef"] ∧
    3 < utf8Len "bcdef".data := by
  decide

/-! ### Security token (`IsomorphicDRM.generateSecMsGec`)

The platform SHA-256 (`crypto.subtle.digest`) is a parameter of the
embedding; `Number.prototype.toFixed(0)` (decimal rendering, used here only
on non-negative integer-valued numbers) is modelled by `natDecimal`. -/

/-- Decimal digit characters of a natural number (fuel-driven; `n` itself
is always enough fuel). -/
def natDecimalF : Nat → Nat → List Char
  | 0, n => [Char.ofNat (48 + n % 10)]
  | fuel + 1, n =>
    if n < 10 then [Char.ofNat (48 + n)]
    else natDecimalF fuel (n / 10) ++ [Char.ofNat (48 + n % 10)]

/-- The decimal digit string of a natural number. -/
def natDecimal (n : Nat) : List Char := natDecimalF n n

/-- Decimal digit-string evaluation, the left inverse of `natDecimal`. -/
def readNat (cs : List Char) : Nat :=
  cs.foldl (fun a c => a * 10 + (c.toNat - 48)) 0

theorem digitChar_toNat : ∀ d : Nat, d < 10 → (Char.ofNat (48 + d)).toNat = 48 + d := by
  decide

theorem readNat_append_digit (A : List Char) (c : Char) :
    readNat (A ++ [c]) = readNat A * 10 + (c.toNat - 48) := by
  simp [readNat, List.foldl_append]

theorem natDecimalF_read : ∀ (fuel n : Nat), n ≤ fuel → readNat (natDecimalF fuel n) = n := by
  intro fuel
  induction fuel with
  | zero =>
    intro n h
    have : n = 0 := Nat.le_zero.mp h
    subst this
    decide
  | succ fuel ih =>
    intro n h
    simp only [natDecimalF]
    split
    · next hn =>
      simp [readNat, digitChar_toNat n hn]
    · next hn =>
      push_neg at hn
      have hdiv : n / 10 ≤ fuel := by omega
      rw [readNat_append_digit, ih _ hdiv, digitChar_toNat (n % 10) (Nat.mod_lt _ (by omega))]
      omega

theorem natDecimal_inj {m n : Nat} (h : natDecimal m = natDecimal n) : m = n := by
  have hm : readNat (natDecimal m) = m := natDecimalF_read m m (Nat.le_refl _)
  have hn : readNat (natDecimal n) = n := natDecimalF_read n n (Nat.le_refl _)
  rw [← hm, ← hn, h]

theorem natDecimalF_ascii : ∀ (fuel n : Nat), ∀ c ∈ natDecimalF fuel n, c.toNat < 128 := by
  intro fuel
  induction fuel with
  | zero =>
    intro n c hc
    simp only [natDecimalF, List.mem_singleton] at hc
    subst hc
    rw [digitChar_toNat _ (Nat.mod_lt _ (by omega))]
    omega
  | succ fuel ih =>
    intro n c hc
    simp only [natDecimalF] at hc
    split at hc
    · next hn =>
      simp only [List.mem_singleton] at hc
      subst hc
      rw [digitChar_toNat _ hn]
      omega
    · next hn =>
      rcases List.mem_append.mp hc with hc | hc
      · exact ih _ c hc
      · simp only [List.mem_singleton] at hc
        subst hc
        rw [digitChar_toNat _ (Nat.mod_lt _ (by omega))]
        omega

theorem char_toNat_lt (c : Char) : c.toNat < 1114112 := by
  have h := c.valid
  rcases h with h | ⟨h1, h2⟩ <;>
    simp [Char.toNat, UInt32.isValidChar, Nat.isValidChar] at * <;> omega

theorem char_toNat_inj {a b : Char} (h : a.toNat = b.toNat) : a = b := by
  have h2 := congrArg Char.ofNat h
  rwa [Char.ofNat_toNat, Char.ofNat_toNat] at h2

theorem map_toNat_inj : ∀ {s1 s2 : List Char},
    s1.map Char.toNat = s2.map Char.toNat → s1 = s2 := by
  intro s1
  induction s1 with
  | nil =>
    intro s2 h
    cases s2 with
    | nil => rfl
    | cons d ds => simp at h
  | cons c cs ih =>
    intro s2 h
    cases s2 with
    | nil => simp at h
    | cons d ds =>
      simp only [List.map_cons, List.cons.injEq] at h
      rw [char_toNat_inj h.1, ih h.2]

theorem utf8EncodeChar_ascii {c : Char} (hc : c.toNat < 128) :
    utf8EncodeChar c = [c.toNat] := by
  simp only [utf8EncodeChar]
  rw [if_pos hc]

theorem utf8Encode_ascii : ∀ (s : List Char), (∀ c ∈ s, c.toNat < 128) →
    utf8Encode s = s.map Char.toNat := by
  intro s h
  induction s with
  | nil => rfl
  | cons c cs ih =>
    have hc : c.toNat < 128 := h c (by simp)
    show (List.map utf8EncodeChar (c :: cs)).flatten = _
    simp only [List.map_cons, List.flatten_cons]
    rw [utf8EncodeChar_ascii hc]
    rw [show (List.map utf8EncodeChar cs).flatten = utf8Encode cs from rfl,
      ih (fun x hx => h x (by simp [hx]))]
    rfl

theorem utf8EncodeChar_lt_256 (c : Char) : ∀ b ∈ utf8EncodeChar c, b < 256 := by
  intro b hb
  have hc := char_toNat_lt c
  simp only [utf8EncodeChar] at hb
  split at hb
  · next h => simp only [List.mem_singleton] at hb; omega
  · split at hb
    · next h =>
      simp only [List.mem_cons, List.not_mem_nil, or_false] at hb
      rcases hb with rfl | rfl <;> omega
    · split at hb
      · next h =>
        simp only [List.mem_cons, List.not_mem_nil, or_false] at hb
        rcases hb with rfl | rfl | rfl <;> omega
      · next h =>
        simp only [List.mem_cons, List.not_mem_nil, or_false] at hb
        rcases hb with rfl | rfl | rfl | rfl <;> omega

theorem utf8Encode_lt_256 (s : List Char) : ∀ b ∈ utf8Encode s, b < 256 := by
  intro b hb
  rw [utf8Encode, List.mem_flatten] at hb
  obtain ⟨l, hl, hbl⟩ := hb
  rw [List.mem_map] at hl
  obtain ⟨c, _, rfl⟩ := hl
  exact utf8EncodeChar_lt_256 c b hbl

/-- One hex digit, as produced by `b.toString(16)` (lowercase). -/
def hexDigit (d : Nat) : Char :=
  Char.ofNat (if d < 10 then 48 + d else 87 + d)

/-- `b.toString(16).padStart(2, "0")` for a byte `b < 256`. -/
def hexByte (b : Nat) : List Char := [hexDigit (b / 16), hexDigit (b % 16)]

/-- Hex rendering of a byte list followed by `.toUpperCase()`. -/
def hexUpperList (bs : List Nat) : List Char :=
  ((bs.map hexByte).flatten).map Char.toUpper

theorem hexUpperList_cons (b : Nat) (bs : List Nat) :
    hexUpperList (b :: bs) =
      Char.toUpper (hexDigit (b / 16)) :: Char.toUpper (hexDigit (b % 16)) ::
        hexUpperList bs := by
  simp [hexUpperList, hexByte]

theorem hexDigitUpper_inj :
    ∀ d1 : Nat, d1 < 16 → ∀ d2 : Nat, d2 < 16 →
      Char.toUpper (hexDigit d1) = Char.toUpper (hexDigit d2) → d1 = d2 := by
  decide

theorem hexUpper_inj : ∀ (bs1 bs2 : List Nat),
    (∀ b ∈ bs1, b < 256) → (∀ b ∈ bs2, b < 256) →
    hexUpperList bs1 = hexUpperList bs2 → bs1 = bs2 := by
  intro bs1
  induction bs1 with
  | nil =>
    intro bs2 _ _ h
    cases bs2 with
    | nil => rfl
    | cons b bs =>
      rw [hexUpperList_cons] at h
      simp [hexUpperList] at h
  | cons b1 rest1 ih =>
    intro bs2 hb1 hb2 h
    cases bs2 with
    | nil =>
      rw [hexUpperList_cons] at h
      simp [hexUpperList] at h
    | cons b2 rest2 =>
      rw [hexUpperList_cons, hexUpperList_cons] at h
      simp only [List.cons.injEq] at h
      obtain ⟨e1, e2, e3⟩ := h
      have hb1' : b1 < 256 := hb1 b1 (by simp)
      have hb2' : b2 < 256 := hb2 b2 (by simp)
      have d1 : b1 / 16 = b2 / 16 :=
        hexDigitUpper_inj _ (by omega) _ (by omega) e1
      have d2 : b1 % 16 = b2 % 16 :=
        hexDigitUpper_inj _ (by omega) _ (by omega) e2
      have hb : b1 = b2 := by omega
      rw [hb, ih rest2 (fun x hx => hb1 x (by simp [hx]))
        (fun x hx => hb2 x (by simp [hx])) e3]

/-- `TRUSTED_CLIENT_TOKEN` from `src/constants.ts`, the fixed shared
secret. -/
def TRUSTED_CLIENT_TOKEN : String := "6A5AA1D4EAFF4E9FB37E23D68491D6F4"

/-- `WIN_EPOCH` from `src/isomorphic-drm.ts` (seconds between the Windows
and Unix epochs). -/
def WIN_EPOCH : Rat := 11644473600

/-- `S_TO_NS` from `src/isomorphic-drm.ts`. -/
def S_TO_NS : Rat := 1000000000

/-- JS truncation toward zero, the rounding used by the `%` operator. -/
def jsTrunc (q : Rat) : Int := if 0 ≤ q then ⌊q⌋ else ⌈q⌉

/-- The JS remainder operator on numbers (takes the dividend's sign). -/
def jsMod (a b : Rat) : Rat := a - b * (jsTrunc (a / b) : Rat)

/-- `Number.prototype.toFixed(0)`: round half away from zero and render in
decimal. `generateSecMsGec` only applies it to non-negative integer-valued
numbers. -/
def toFixed0 (q : Rat) : List Char :=
  if 0 ≤ q then natDecimal (⌊q + 1/2⌋).toNat
  else '-' :: natDecimal (⌊-q + 1/2⌋).toNat

/-- The tick computation of `generateSecMsGec`: shift the adjusted Unix
time `t` by `WIN_EPOCH`, truncate down to the 300-second bucket, convert to
100-nanosecond ticks. -/
def secMsGecTicks (t : Rat) : Rat :=
  let ticks0 := t + WIN_EPOCH
  let ticks1 := ticks0 - jsMod ticks0 300
  ticks1 * (S_TO_NS / 100)

/-- The string fed to the SHA-256 digest: the decimal tick value
concatenated with the shared secret. -/
def secMsGecHashInput (t : Rat) : List Char :=
  toFixed0 (secMsGecTicks t) ++ TRUSTED_CLIENT_TOKEN.data

/-- `generateSecMsGec`, with the platform SHA-256 (`crypto.subtle.digest`)
as the byte-level parameter `digest` and `t` the value of
`getUnixTimestamp()`: the uppercase hex encoding of the digest of the UTF-8
bytes of the tick-plus-secret string. -/
def generateSecMsGec (digest : List Nat → List Nat) (t : Rat) : String :=
  ⟨hexUpperList (digest (utf8Encode (secMsGecHashInput t)))⟩

theorem secMsGecTicks_eq (t : Rat) (h : 0 ≤ t + WIN_EPOCH) :
    secMsGecTicks t = ((3000000000 * ⌊(t + WIN_EPOCH) / 300⌋ : Int) : Rat) := by
  have hq : 0 ≤ (t + WIN_EPOCH) / 300 := div_nonneg h (by norm_num)
  simp only [secMsGecTicks, jsMod, jsTrunc, if_pos hq]
  have hs : S_TO_NS / 100 = (10000000 : Rat) := by norm_num [S_TO_NS]
  rw [hs]
  push_cast
  ring

theorem toFixed0_intCast (k : Int) (hk : 0 ≤ k) :
    toFixed0 (k : Rat) = natDecimal k.toNat := by
  unfold toFixed0
  rw [if_pos (by exact_mod_cast hk)]
  congr 1
  have hf : ⌊(k : Rat) + 1 / 2⌋ = k := by
    rw [Int.floor_int_add]
    norm_num
  rw [hf]

theorem token_ascii : ∀ c ∈ TRUSTED_CLIENT_TOKEN.data, c.toNat < 128 := by
  decide

/-- C4: `generateSecMsGec` feeds the digest the decimal 100-ns tick value
of the 300-second bucket of the epoch-shifted adjusted time, concatenated
with the fixed shared secret, and returns the uppercase hex digest. Two
calls whose adjusted times fall in the same 300-second bucket produce equal
tokens; calls in different buckets feed different strings to the digest and
produce different tokens whenever the digest separates those two strings
with byte-valued output (as SHA-256 does). -/
theorem c4_token_bucket (digest : List Nat → List Nat) (t1 t2 : Rat)
    (h1 : 0 ≤ t1 + WIN_EPOCH) (h2 : 0 ≤ t2 + WIN_EPOCH) :
    (⌊(t1 + WIN_EPOCH) / 300⌋ = ⌊(t2 + WIN_EPOCH) / 300⌋ →
      generateSecMsGec digest t1 = generateSecMsGec digest t2) ∧
    (⌊(t1 + WIN_EPOCH) / 300⌋ ≠ ⌊(t2 + WIN_EPOCH) / 300⌋ →
      secMsGecHashInput t1 ≠ secMsGecHashInput t2 ∧
      ((digest (utf8Encode (secMsGecHashInput t1)) =
          digest (utf8Encode (secMsGecHashInput t2)) →
        utf8Encode (secMsGecHashInput t1) = utf8Encode (secMsGecHashInput t2)) →
       (∀ b ∈ digest (utf8Encode (secMsGecHashInput t1)), b < 256) →
       (∀ b ∈ digest (utf8Encode (secMsGecHashInput t2)), b < 256) →
       generateSecMsGec digest t1 ≠ generateSecMsGec digest t2)) := by
  have hfloor1 : 0 ≤ ⌊(t1 + WIN_EPOCH) / 300⌋ :=
    Int.floor_nonneg.mpr (div_nonneg h1 (by norm_num))
  have hfloor2 : 0 ≤ ⌊(t2 + WIN_EPOCH) / 300⌋ :=
    Int.floor_nonneg.mpr (div_nonneg h2 (by norm_num))
  have hin1 : secMsGecHashInput t1 =
      natDecimal (3000000000 * ⌊(t1 + WIN_EPOCH) / 300⌋).toNat ++
        TRUSTED_CLIENT_TOKEN.data := by
    unfold secMsGecHashInput
    rw [secMsGecTicks_eq t1 h1,
      toFixed0_intCast _ (by exact mul_nonneg (by norm_num) hfloor1)]
  have hin2 : secMsGecHashInput t2 =
      natDecimal (3000000000 * ⌊(t2 + WIN_EPOCH) / 300⌋).toNat ++
        TRUSTED_CLIENT_TOKEN.data := by
    unfold secMsGecHashInput
    rw [secMsGecTicks_eq t2 h2,
      toFixed0_intCast _ (by exact mul_nonneg (by norm_num) hfloor2)]
  have hascii1 : ∀ c ∈ secMsGecHashInput t1, c.toNat < 128 := by
    rw [hin1]
    intro c hc
    rcases List.mem_append.mp hc with hc | hc
    · exact natDecimalF_ascii _ _ c hc
    · exact token_ascii c hc
  have hascii2 : ∀ c ∈ secMsGecHashInput t2, c.toNat < 128 := by
    rw [hin2]
    intro c hc
    rcases List.mem_append.mp hc with hc | hc
    · exact natDecimalF_ascii _ _ c hc
    · exact token_ascii c hc
  constructor
  · intro heq
    have hsame : secMsGecHashInput t1 = secMsGecHashInput t2 := by
      rw [hin1, hin2, heq]
    rw [generateSecMsGec, generateSecMsGec, hsame]
  · intro hne
    have hdiffInput : secMsGecHashInput t1 ≠ secMsGecHashInput t2 := by
      rw [hin1, hin2]
      intro hcontra
      apply hne
      have hdec := List.append_cancel_right hcontra
      have htn := natDecimal_inj hdec
      have hmul : 3000000000 * ⌊(t1 + WIN_EPOCH) / 300⌋ =
          3000000000 * ⌊(t2 + WIN_EPOCH) / 300⌋ := by omega
      exact mul_left_cancel₀ (by norm_num : (3000000000 : Int) ≠ 0) hmul
    refine ⟨hdiffInput, ?_⟩
    intro hdig hb1 hb2 hgen
    apply hdiffInput
    have hmk : hexUpperList (digest (utf8Encode (secMsGecHashInput t1))) =
        hexUpperList (digest (utf8Encode (secMsGecHashInput t2))) :=
      congrArg String.data hgen
    have hdeq := hexUpper_inj _ _ hb1 hb2 hmk
    have henc := hdig hdeq
    rw [utf8Encode_ascii _ hascii1, utf8Encode_ascii _ hascii2] at henc
    exact map_toNat_inj henc

/-- Witness for C4: adjusted times 0 and 300 fall in adjacent buckets, and
with the identity digest (injective, byte-valued on these UTF-8 inputs) the
hash inputs and the resulting tokens both differ. -/
theorem c4_token_bucket_witness :
    secMsGecHashInput 0 ≠ secMsGecHashInput 300 ∧
    generateSecMsGec id 0 ≠ generateSecMsGec id 300 := by
  have hb : ⌊((0 : Rat) + WIN_EPOCH) / 300⌋ ≠ ⌊((300 : Rat) + WIN_EPOCH) / 300⌋ := by
    norm_num [WIN_EPOCH]
  have h := (c4_token_bucket id 0 300 (by norm_num [WIN_EPOCH])
    (by norm_num [WIN_EPOCH])).2 hb
  refine ⟨h.1, ?_⟩
  exact h.2 (fun x => x) (fun b hbm => utf8Encode_lt_256 _ b hbm)
    (fun b hbm => utf8Encode_lt_256 _ b hbm)

/-! ### The escape / unescape round trip (C10)

`escape` rewrites each of the five special characters to its entity, so its
output is the concatenation of per-character blocks; each `unescape` stage
then rewrites exactly the blocks equal to its pattern, because a pattern
match can only start at a block's leading `&` and every non-matching block
disagrees with the pattern inside the block. -/

/-- Per-character block concatenation (`flatMap`). -/
def blocksMap (e : Char → List Char) : List Char → List Char
  | [] => []
  | c :: cs => e c ++ blocksMap e cs

theorem blocksMap_append (e : Char → List Char) (a b : List Char) :
    blocksMap e (a ++ b) = blocksMap e a ++ blocksMap e b := by
  induction a with
  | nil => rfl
  | cons c cs ih => simp [blocksMap, ih]

theorem blocksMap_comp (e1 e2 : Char → List Char) :
    ∀ s, blocksMap e1 (blocksMap e2 s) = blocksMap (fun c => blocksMap e1 (e2 c)) s := by
  intro s
  induction s with
  | nil => rfl
  | cons c cs ih => simp [blocksMap, blocksMap_append, ih]

theorem blocksMap_congr {e1 e2 : Char → List Char} (h : ∀ c, e1 c = e2 c) :
    ∀ s, blocksMap e1 s = blocksMap e2 s := by
  intro s
  induction s with
  | nil => rfl
  | cons c cs ih => simp [blocksMap, h c, ih]

theorem blocksMap_id : ∀ s : List Char, blocksMap (fun c => [c]) s = s := by
  intro s
  induction s with
  | nil => rfl
  | cons c cs ih => simp [blocksMap, ih]

theorem replaceAll_single (c : Char) (rep : List Char) :
    ∀ s, replaceAll c [] rep s =
      blocksMap (fun x => if x = c then rep else [x]) s := by
  intro s
  induction s with
  | nil => rfl
  | cons x xs ih =>
    by_cases hx : x = c
    · subst hx
      have hs : stripPat [x] (x :: xs) = some xs := by simp [stripPat]
      rw [replaceAll_cons_match hs, ih]
      simp [blocksMap]
    · have hs : stripPat [c] (x :: xs) = none := by
        simp [stripPat]
        intro hc
        exact absurd hc.symm hx
      rw [replaceAll_cons_nomatch hs, ih]
      simp [blocksMap, hx]

/-- Two character lists disagree at a position that exists in both. -/
def conflicts : List Char → List Char → Bool
  | p :: ps, b :: bs => (p != b) || conflicts ps bs
  | _, _ => false

theorem conflicts_stripPat :
    ∀ {p b : List Char}, conflicts p b = true → ∀ r, stripPat p (b ++ r) = none := by
  intro p
  induction p with
  | nil => intro b h; simp [conflicts] at h
  | cons x xs ih =>
    intro b h r
    cases b with
    | nil => simp [conflicts] at h
    | cons y ys =>
      simp only [conflicts, Bool.or_eq_true, bne_iff_ne] at h
      rcases h with h | h
      · simp [stripPat]
        intro hxy
        exact absurd hxy h
      · simp only [List.cons_append, stripPat]
        split
        · exact ih h r
        · rfl

theorem replaceAll_skip_char {ps rep : List Char} {x : Char} (hx : x ≠ '&')
    (rest : List Char) :
    replaceAll '&' ps rep (x :: rest) = x :: replaceAll '&' ps rep rest := by
  apply replaceAll_cons_nomatch
  simp [stripPat]
  intro h
  exact absurd h.symm hx

theorem replaceAll_skip_list {ps rep : List Char} :
    ∀ {l : List Char}, (∀ x ∈ l, x ≠ '&') → ∀ rest,
      replaceAll '&' ps rep (l ++ rest) = l ++ replaceAll '&' ps rep rest := by
  intro l
  induction l with
  | nil => intro _ rest; rfl
  | cons x xs ih =>
    intro h rest
    rw [List.cons_append, replaceAll_skip_char (h x (by simp)),
      ih (fun y hy => h y (by simp [hy])) rest]
    rfl

theorem replaceAll_match_front {ps rep : List Char} (rest : List Char) :
    replaceAll '&' ps rep (('&' :: ps) ++ rest) = rep ++ replaceAll '&' ps rep rest := by
  apply replaceAll_cons_match
  exact stripPat_eq_some.mpr rfl

theorem replaceAll_skip_entity {ps rep tail : List Char}
    (hconf : conflicts ps tail = true) (hne : ∀ x ∈ tail, x ≠ '&')
    (rest : List Char) :
    replaceAll '&' ps rep (('&' :: tail) ++ rest) =
      ('&' :: tail) ++ replaceAll '&' ps rep rest := by
  have h1 : stripPat ('&' :: ps) ('&' :: (tail ++ rest)) = none := by
    simp only [stripPat, if_pos rfl]
    exact conflicts_stripPat hconf rest
  calc replaceAll '&' ps rep (('&' :: tail) ++ rest)
      = replaceAll '&' ps rep ('&' :: (tail ++ rest)) := by rw [List.cons_append]
    _ = '&' :: replaceAll '&' ps rep (tail ++ rest) := replaceAll_cons_nomatch h1
    _ = '&' :: (tail ++ replaceAll '&' ps rep rest) := by
          rw [replaceAll_skip_list hne rest]
    _ = ('&' :: tail) ++ replaceAll '&' ps rep rest := by rw [List.cons_append]

theorem replaceAll_blocks (ps rep : List Char) (eIn eOut : Char → List Char)
    (hcond : ∀ c,
      (eIn c = '&' :: ps ∧ eOut c = rep) ∨
      (eOut c = eIn c ∧
        ((eIn c = [c] ∧ c ≠ '&') ∨
         (∃ tail, eIn c = '&' :: tail ∧ conflicts ps tail = true ∧
            ∀ x ∈ tail, x ≠ '&')))) :
    ∀ s, replaceAll '&' ps rep (blocksMap eIn s) = blocksMap eOut s := by
  intro s
  induction s with
  | nil => rfl
  | cons c cs ih =>
    show replaceAll '&' ps rep (eIn c ++ blocksMap eIn cs) =
      eOut c ++ blocksMap eOut cs
    rcases hcond c with ⟨h1, h2⟩ | ⟨h2, ⟨h3, h4⟩ | ⟨tail, h3, h4, h5⟩⟩
    · rw [h1, h2, replaceAll_match_front, ih]
    · rw [h3, h2, h3, List.singleton_append, replaceAll_skip_char h4, ih]
      rfl
    · rw [h3, h2, h3, replaceAll_skip_entity h4 h5, ih]

/-- The per-character block produced by `escape`. -/
def escChar (c : Char) : List Char :=
  if c = '&' then "&amp;".data
  else if c = '<' then "&lt;".data
  else if c = '>' then "&gt;".data
  else if c = '"' then "&quot;".data
  else if c = aposChar then "&apos;".data
  else [c]

/-- Blocks after the `&quot;` stage of `unescape`. -/
def uChar1 (c : Char) : List Char :=
  if c = '&' then "&amp;".data
  else if c = '<' then "&lt;".data
  else if c = '>' then "&gt;".data
  else if c = aposChar then "&apos;".data
  else [c]

/-- Blocks after the `&apos;` stage of `unescape`. -/
def uChar2 (c : Char) : List Char :=
  if c = '&' then "&amp;".data
  else if c = '<' then "&lt;".data
  else if c = '>' then "&gt;".data
  else [c]

/-- Blocks after the `&lt;` stage of `unescape`. -/
def uChar3 (c : Char) : List Char :=
  if c = '&' then "&amp;".data
  else if c = '>' then "&gt;".data
  else [c]

/-- Blocks after the `&gt;` stage of `unescape`. -/
def uChar4 (c : Char) : List Char :=
  if c = '&' then "&amp;".data
  else [c]

theorem escapeList_blocks (s : List Char) : escapeList s = blocksMap escChar s := by
  unfold escapeList
  rw [replaceAll_single, replaceAll_single, replaceAll_single, replaceAll_single,
    replaceAll_single, blocksMap_comp, blocksMap_comp, blocksMap_comp, blocksMap_comp]
  apply blocksMap_congr
  intro c
  by_cases h1 : c = '&'
  · subst h1; decide
  · by_cases h2 : c = '<'
    · subst h2; decide
    · by_cases h3 : c = '>'
      · subst h3; decide
      · by_cases h4 : c = '"'
        · subst h4; decide
        · by_cases h5 : c = aposChar
          · subst h5; decide
          · simp [blocksMap, escChar, h1, h2, h3, h4, h5]

theorem uCond1 : ∀ c,
    (escChar c = '&' :: "quot;".data ∧ uChar1 c = ['"']) ∨
    (uChar1 c = escChar c ∧
      ((escChar c = [c] ∧ c ≠ '&') ∨
       (∃ tail, escChar c = '&' :: tail ∧ conflicts "quot;".data tail = true ∧
          ∀ x ∈ tail, x ≠ '&'))) := by
  intro c
  by_cases h1 : c = '&'
  · subst h1
    exact Or.inr ⟨by decide, Or.inr ⟨"amp;".data, by decide, by decide, by decide⟩⟩
  · by_cases h2 : c = '<'
    · subst h2
      exact Or.inr ⟨by decide, Or.inr ⟨"lt;".data, by decide, by decide, by decide⟩⟩
    · by_cases h3 : c = '>'
      · subst h3
        exact Or.inr ⟨by decide, Or.inr ⟨"gt;".data, by decide, by decide, by decide⟩⟩
      · by_cases h4 : c = '"'
        · subst h4
          exact Or.inl ⟨by decide, by decide⟩
        · by_cases h5 : c = aposChar
          · subst h5
            exact Or.inr ⟨by decide, Or.inr ⟨"apos;".data, by decide, by decide, by decide⟩⟩
          · exact Or.inr ⟨by simp [uChar1, escChar, h1, h2, h3, h4, h5],
              Or.inl ⟨by simp [escChar, h1, h2, h3, h4, h5], h1⟩⟩

theorem uCond2 : ∀ c,
    (uChar1 c = '&' :: "apos;".data ∧ uChar2 c = [aposChar]) ∨
    (uChar2 c = uChar1 c ∧
      ((uChar1 c = [c] ∧ c ≠ '&') ∨
       (∃ tail, uChar1 c = '&' :: tail ∧ conflicts "apos;".data tail = true ∧
          ∀ x ∈ tail, x ≠ '&'))) := by
  intro c
  by_cases h1 : c = '&'
  · subst h1
    exact Or.inr ⟨by decide, Or.inr ⟨"amp;".data, by decide, by decide, by decide⟩⟩
  · by_cases h2 : c = '<'
    · subst h2
      exact Or.inr ⟨by decide, Or.inr ⟨"lt;".data, by decide, by decide, by decide⟩⟩
    · by_cases h3 : c = '>'
      · subst h3
        exact Or.inr ⟨by decide, Or.inr ⟨"gt;".data, by decide, by decide, by decide⟩⟩
      · by_cases h5 : c = aposChar
        · subst h5
          exact Or.inl ⟨by decide, by decide⟩
        · exact Or.inr ⟨by simp [uChar1, uChar2, h1, h2, h3, h5],
            Or.inl ⟨by simp [uChar1, h1, h2, h3, h5], h1⟩⟩

theorem uCond3 : ∀ c,
    (uChar2 c = '&' :: "lt;".data ∧ uChar3 c = ['<']) ∨
    (uChar3 c = uChar2 c ∧
      ((uChar2 c = [c] ∧ c ≠ '&') ∨
       (∃ tail, uChar2 c = '&' :: tail ∧ conflicts "lt;".data tail = true ∧
          ∀ x ∈ tail, x ≠ '&'))) := by
  intro c
  by_cases h1 : c = '&'
  · subst h1
    exact Or.inr ⟨by decide, Or.inr ⟨"amp;".data, by decide, by decide, by decide⟩⟩
  · by_cases h2 : c = '<'
    · subst h2
      exact Or.inl ⟨by decide, by decide⟩
    · by_cases h3 : c = '>'
      · subst h3
        exact Or.inr ⟨by decide, Or.inr ⟨"gt;".data, by decide, by decide, by decide⟩⟩
      · exact Or.inr ⟨by simp [uChar2, uChar3, h1, h2, h3],
          Or.inl ⟨by simp [uChar2, h1, h2, h3], h1⟩⟩

theorem uCond4 : ∀ c,
    (uChar3 c = '&' :: "gt;".data ∧ uChar4 c = ['>']) ∨
    (uChar4 c = uChar3 c ∧
      ((uChar3 c = [c] ∧ c ≠ '&') ∨
       (∃ tail, uChar3 c = '&' :: tail ∧ conflicts "gt;".data tail = true ∧
          ∀ x ∈ tail, x ≠ '&'))) := by
  intro c
  by_cases h1 : c = '&'
  · subst h1
    exact Or.inr ⟨by decide, Or.inr ⟨"amp;".data, by decide, by decide, by decide⟩⟩
  · by_cases h3 : c = '>'
    · subst h3
      exact Or.inl ⟨by decide, by decide⟩
    · exact Or.inr ⟨by simp [uChar3, uChar4, h1, h3],
        Or.inl ⟨by simp [uChar3, h1, h3], h1⟩⟩

theorem uCond5 : ∀ c,
    (uChar4 c = '&' :: "amp;".data ∧ [c] = ['&']) ∨
    (([c] : List Char) = uChar4 c ∧
      ((uChar4 c = [c] ∧ c ≠ '&') ∨
       (∃ tail, uChar4 c = '&' :: tail ∧ conflicts "amp;".data tail = true ∧
          ∀ x ∈ tail, x ≠ '&'))) := by
  intro c
  by_cases h1 : c = '&'
  · subst h1
    exact Or.inl ⟨by decide, by decide⟩
  · exact Or.inr ⟨by simp [uChar4, h1], Or.inl ⟨by simp [uChar4, h1], h1⟩⟩

theorem unescape_escapeList (s : List Char) : unescapeList (escapeList s) = s := by
  rw [escapeList_blocks]
  unfold unescapeList
  rw [replaceAll_blocks "quot;".data ['"'] escChar uChar1 uCond1,
    replaceAll_blocks "apos;".data [aposChar] uChar1 uChar2 uCond2,
    replaceAll_blocks "lt;".data ['<'] uChar2 uChar3 uCond3,
    replaceAll_blocks "gt;".data ['>'] uChar3 uChar4 uCond4,
    replaceAll_blocks "amp;".data ['&'] uChar4 (fun c => [c]) uCond5,
    blocksMap_id]

/-- C10: for every string `s`, `unescape (escape s) = s` — the XML escaping
applied to outgoing SSML text and the unescaping applied to incoming
WordBoundary metadata text are mutually inverse in this direction, so a
word's text survives the wire round trip unchanged. -/
theorem c10_unescape_escape (s : String) : unescape (escape s) = s := by
  show String.mk (unescapeList (escapeList s.data)) = s
  rw [unescape_escapeList]

end EdgeTTS
